import Mathlib

/-
Verification of the read-agent repository (src/agent.py) against its
specification.  The agent control loop, the response grammar parser, the
tool dispatcher and the memory store are shallowly embedded below; Python
strings are modelled as `List Char` (wrapped in `String` at the interface),
Python exceptions as `Except`, and the external collaborators (the LLM
transport and the CodeSearcher index provider) as oracle functions supplied
to the loop.
-/

namespace Agent

/-- Characters of a string literal, the `List Char` view used throughout. -/
def cs (s : String) : List Char := s.data

/-- Python `\s` on the ASCII range (re module whitespace class). -/
def isPySpace (c : Char) : Bool :=
  c = ' ' || c = '\t' || c = '\n' || c = '\r' || c = '\x0b' || c = '\x0c'

/-- Python `str.strip()`: drop leading and trailing whitespace. -/
def stripChars (l : List Char) : List Char :=
  ((l.dropWhile isPySpace).reverse.dropWhile isPySpace).reverse

/-- Length of the maximal whitespace run at the head of `l` (greedy `\s*`). -/
def wsLen (l : List Char) : Nat := (l.takeWhile isPySpace).length

/-- Does the literal `d` occur at the head of `l`? -/
def takeEq (d l : List Char) : Bool := decide (l.take d.length = d)

/-- All positions of `s` at which the literal `d` occurs, ascending. -/
def occs (d s : List Char) : List Nat :=
  (List.range (s.length + 1)).filter (fun q => takeEq d (s.drop q))

/-- Substring occurrence test, via `occs`. -/
def containsSub (d s : List Char) : Bool := ! (occs d s).isEmpty

/-- Python `"x".split(",")`: split at every comma, keeping empty pieces. -/
def splitComma : List Char → List (List Char)
  | [] => [[]]
  | c :: rest =>
    let r := splitComma rest
    if c = ',' then [] :: r
    else
      match r with
      | [] => [[c]]
      | h :: t => (c :: h) :: t

/-- The list comprehension `[k.strip() for k in raw.split(",") if k.strip()]`:
comma-split, strip each piece, drop pieces that strip to empty. -/
def cleanList (l : List Char) : List (List Char) :=
  ((splitComma l).map stripChars).filter (fun p => decide (p ≠ []))

/-- First `f q = some r` over a list of candidate positions (regex
backtracking order: candidates are tried left to right). -/
def firstHit (f : Nat → Option α) : List Nat → Option α
  | [] => none
  | q :: qs =>
    match f q with
    | some r => some r
    | none => firstHit f qs

/-- The candidate end/delimiter positions explored for `\s*(.+?)` followed by
a delimiter, starting at `p` with a whitespace run of length `W`: the regex
engine first tries every position after the whole run (lazy group, ascending)
and then backs the greedy `\s*` off one character at a time (descending
positions inside the run, each leaving a one-character group). -/
def candList (ok : Nat → Bool) (p W n : Nat) : List Nat :=
  ((List.range (n + 1)).filter (fun q => ok q && decide (p + W + 1 ≤ q))) ++
    (((List.range (n + 1)).filter
      (fun q => ok q && decide (p + 1 ≤ q) && decide (q ≤ p + W))).reverse)

/-- The `(.+?)` group content once its end position `q` is fixed: the greedy
`\s*` keeps as much of the whitespace run as leaves the group nonempty. -/
def grabGroup (s : List Char) (p W q : Nat) : List Char :=
  let x := p + min W (q - p - 1)
  (s.drop x).take (q - x)

/-- End-of-match test for `(?:TERM|$)` at position `e`: the literal
terminator occurs there, or `$` matches (end of string, or just before a
final newline -- Python semantics without MULTILINE). -/
def endOk (term s : List Char) (e : Nat) : Bool :=
  takeEq term (s.drop e) || decide (s.drop e = []) || decide (s.drop e = ['\n'])

/-- Match `\s*(.+?)(?:TERM|$)` at position `p`, returning the group. -/
def singleCap (term s : List Char) (p : Nat) : Option (List Char) :=
  firstHit (fun e => some (grabGroup s p (wsLen (s.drop p)) e))
    (candList (endOk term s) p (wsLen (s.drop p)) s.length)

/-- Leftmost-match search for `MARKER\s*(.+?)(?:TERM|$)`: try each occurrence
of the marker left to right. -/
def extractField (marker term s : List Char) : Option (List Char) :=
  firstHit (fun pM => singleCap term s (pM + marker.length)) (occs marker s)

def mMemory : List Char := cs "Memory:"
def mThought : List Char := cs "Thought:"
def mAction : List Char := cs "Action:"
def mFinal : List Char := cs "Final Answer:"
def lFile : List Char := cs "file:"
def dOver : List Char := cs "\noverview:"
def dKey : List Char := cs "\nkey_definitions:"
def dCore : List Char := cs "\ncore_logic:"
def dDep : List Char := cs "\ndependencies:"
def dNeed : List Char := cs "\nneeded_info:"
def tMem : List Char := cs "\n\n"
def tAction : List Char := cs "\nAction:"
def tMemory : List Char := cs "\nMemory:"

/-- Stage 6 of the memory regex: `\s*(.+?)(?:\n\n|$)` after `needed_info:`. -/
def memStage6 (s : List Char) (p : Nat) : Option (List Char) :=
  firstHit (fun e => some (grabGroup s p (wsLen (s.drop p)) e))
    (candList (endOk tMem s) p (wsLen (s.drop p)) s.length)

/-- Stage 5: `\s*(.+?)\nneeded_info:` then stage 6, with backtracking over
the delimiter occurrence when the tail fails. -/
def memStage5 (s : List Char) (p : Nat) : Option (List Char × List Char) :=
  firstHit
    (fun q => (memStage6 s (q + dNeed.length)).map
      (fun r => (grabGroup s p (wsLen (s.drop p)) q, r)))
    (candList (fun q => takeEq dNeed (s.drop q)) p (wsLen (s.drop p)) s.length)

/-- Stage 4: `\s*(.+?)\ndependencies:` then stage 5. -/
def memStage4 (s : List Char) (p : Nat) :
    Option (List Char × List Char × List Char) :=
  firstHit
    (fun q => (memStage5 s (q + dDep.length)).map
      (fun r => (grabGroup s p (wsLen (s.drop p)) q, r)))
    (candList (fun q => takeEq dDep (s.drop q)) p (wsLen (s.drop p)) s.length)

/-- Stage 3: `\s*(.+?)\ncore_logic:` then stage 4. -/
def memStage3 (s : List Char) (p : Nat) :
    Option (List Char × List Char × List Char × List Char) :=
  firstHit
    (fun q => (memStage4 s (q + dCore.length)).map
      (fun r => (grabGroup s p (wsLen (s.drop p)) q, r)))
    (candList (fun q => takeEq dCore (s.drop q)) p (wsLen (s.drop p)) s.length)

/-- Stage 2: `\s*(.+?)\nkey_definitions:` then stage 3. -/
def memStage2 (s : List Char) (p : Nat) :
    Option (List Char × List Char × List Char × List Char × List Char) :=
  firstHit
    (fun q => (memStage3 s (q + dKey.length)).map
      (fun r => (grabGroup s p (wsLen (s.drop p)) q, r)))
    (candList (fun q => takeEq dKey (s.drop q)) p (wsLen (s.drop p)) s.length)

/-- Stage 1: `\s*(.+?)\noverview:` then stage 2. -/
def memStage1 (s : List Char) (p : Nat) :
    Option (List Char × List Char × List Char × List Char × List Char × List Char) :=
  firstHit
    (fun q => (memStage2 s (q + dOver.length)).map
      (fun r => (grabGroup s p (wsLen (s.drop p)) q, r)))
    (candList (fun q => takeEq dOver (s.drop q)) p (wsLen (s.drop p)) s.length)

/-- Attempt the memory pattern with the `Memory:` literal anchored at `pM`:
`Memory:\s*file:` admits a match only with the whole whitespace run consumed
(the `f` of `file:` is not whitespace), then the six capture stages run. -/
def memFromStart (s : List Char) (pM : Nat) :
    Option (List Char × List Char × List Char × List Char × List Char × List Char) :=
  let p := pM + mMemory.length
  let W := wsLen (s.drop p)
  if takeEq lFile (s.drop (p + W)) then memStage1 s (p + W + lFile.length)
  else none

/-- The six raw groups of the memory regex, leftmost `Memory:` occurrence
that admits a full match. -/
def extractMemoryCore (s : List Char) :
    Option (List Char × List Char × List Char × List Char × List Char × List Char) :=
  firstHit (memFromStart s) (occs mMemory s)

/-- Python `\w` on the ASCII range (word character). -/
def isWordChar (c : Char) : Bool := c.isAlphanum || c = '_'

/-- Match `Action:\s*(\w+)\(([^)]*)\)` with the `Action:` literal anchored at
`pA`: the tool name is the maximal word run after the whitespace run (word
and whitespace characters are disjoint, and a shorter greedy `\w+` cannot be
followed by the required open paren), the argument text is everything up to
the first close paren, which must exist. -/
def actionAt (s : List Char) (pA : Nat) : Option (List Char × List Char) :=
  let p := pA + mAction.length
  let W := wsLen (s.drop p)
  let name := (s.drop (p + W)).takeWhile isWordChar
  if name = [] then none
  else
    match s.drop (p + W + name.length) with
    | '(' :: r =>
      let args := r.takeWhile (fun c => c ≠ ')')
      if r.drop args.length = [] then none else some (name, args)
    | _ => none

/-- Leftmost match of the action pattern. -/
def extractActionCore (s : List Char) : Option (List Char × List Char) :=
  firstHit (actionAt s) (occs mAction s)

/-- One match of `(\w+)="([^"]*)"` anchored at the head of `l`, returning
name, value and the remainder after the closing quote. -/
def argMatchAt (l : List Char) : Option (List Char × List Char × List Char) :=
  let name := l.takeWhile isWordChar
  if name = [] then none
  else
    match l.drop name.length with
    | '=' :: '"' :: r =>
      let v := r.takeWhile (fun c => c ≠ '"')
      if r.drop v.length = [] then none
      else some (name, v, (r.drop v.length).drop 1)
    | _ => none

/-- `re.finditer` scan for the argument pattern: at each position try a
match; on success continue after it, otherwise advance one character.  The
fuel starts at the length of the text and every step consumes at least one
character, so it never runs out before the scan finishes. -/
def argScan : Nat → List Char → List (List Char × List Char)
  | 0, _ => []
  | _, [] => []
  | fuel + 1, c :: rest =>
    match argMatchAt (c :: rest) with
    | some (n, v, r) => (n, v) :: argScan fuel r
    | none => argScan fuel rest

/-- Python dict assignment `d[k] = v`: overwrite in place, else append. -/
def dictInsert (d : List (String × String)) (k v : String) :
    List (String × String) :=
  if d.any (fun kv => kv.1 = k) then
    d.map (fun kv => if kv.1 = k then (k, v) else kv)
  else d ++ [(k, v)]

/-- The argument dictionary built by the `finditer` loop in
`ReadAgent._extract_thought_action`. -/
def parseArgs (l : List Char) : List (String × String) :=
  (argScan l.length l).foldl
    (fun d nv => dictInsert d (String.mk nv.1) (String.mk nv.2)) []

/-- Embeds `ReadAgent._extract_thought_action` (src/agent.py): the stripped
`Thought:` group (empty when absent), the action name (empty when absent)
and the parsed argument mapping. -/
def extract_thought_action (s : String) :
    String × String × List (String × String) :=
  let th := String.mk (stripChars ((extractField mThought tAction (cs s)).getD []))
  match extractActionCore (cs s) with
  | none => (th, "", [])
  | some (name, args) => (th, String.mk name, parseArgs args)

/-- The parsed memory dictionary of `ReadAgent._extract_final_answer`. -/
structure MemoryData where
  file : String
  overview : String
  key_definitions : List String
  core_logic : String
  dependencies : List String
  needed_info : String
  deriving DecidableEq, Repr

/-- Embeds `ReadAgent._extract_final_answer` (src/agent.py): the stripped
`Final Answer:` group (empty when absent) and, when the full six-line
`Memory:` pattern matches, the memory dictionary with stripped fields and
comma-split list fields. -/
def extract_final_answer (s : String) : String × Option MemoryData :=
  let ans := String.mk (stripChars ((extractField mFinal tMemory (cs s)).getD []))
  match extractMemoryCore (cs s) with
  | none => (ans, none)
  | some (g1, g2, g3, g4, g5, g6) =>
    (ans, some
      { file := String.mk (stripChars g1)
        overview := String.mk (stripChars g2)
        key_definitions := (cleanList g3).map String.mk
        core_logic := String.mk (stripChars g4)
        dependencies := (cleanList g5).map String.mk
        needed_info := String.mk (stripChars g6) })

/-- Python-style values crossing the tool boundary (JSON-serialisable). -/
inductive PyVal where
  | pyStr (s : String)
  | pyBool (b : Bool)
  | pyInt (n : Nat)
  | pyList (xs : List PyVal)
  | pyDict (fs : List (String × PyVal))
  deriving Repr

/-- Top-level keys of a dict value (empty for non-dicts). -/
def pyKeys : PyVal → List String
  | .pyDict fs => fs.map (fun kv => kv.1)
  | _ => []

mutual
/-- `json.dumps` with default separators and `ensure_ascii=False`
(string-escape handling elided: the embedded strings carry no escapes). -/
def pyDump : PyVal → String
  | .pyStr s => "\"" ++ s ++ "\""
  | .pyBool true => "true"
  | .pyBool false => "false"
  | .pyInt n => toString n
  | .pyList xs => "[" ++ pyDumpList xs ++ "]"
  | .pyDict fs => "\x7b" ++ pyDumpFields fs ++ "\x7d"

def pyDumpList : List PyVal → String
  | [] => ""
  | [x] => pyDump x
  | x :: y :: t => pyDump x ++ ", " ++ pyDumpList (y :: t)

def pyDumpFields : List (String × PyVal) → String
  | [] => ""
  | [kv] => "\"" ++ kv.1 ++ "\": " ++ pyDump kv.2
  | kv :: kw :: t => "\"" ++ kv.1 ++ "\": " ++ pyDump kv.2 ++ ", " ++ pyDumpFields (kw :: t)
end

/-- The six tool names registered by `ToolExecutor.register_tools`. -/
def toolRegistry : List String :=
  ["read_file", "find_files", "search_code", "find_by_ext", "list_dir", "get_file_info"]

/-- A Code Index Provider oracle: the bound operation for a registered tool
name applied to a keyword-argument mapping; `Except.error` models any
exception raised inside the `try` block (including keyword-binding errors
and CodeSearcher failures). -/
def Provider : Type := String → List (String × String) → Except String PyVal

/-- Embeds `ToolExecutor.execute_tool` (src/agent.py): an unregistered name
yields the bare error dict; otherwise the bound operation runs and any
exception is reported as a structured failure dict, a clean result as a
success dict.  The function is total: nothing escapes. -/
def execute_tool (provider : Provider) (name : String)
    (args : List (String × String)) : PyVal :=
  if toolRegistry.contains name then
    match provider name args with
    | .ok v =>
      .pyDict [("success", .pyBool true), ("tool", .pyStr name), ("result", v)]
    | .error e =>
      .pyDict [("success", .pyBool false), ("tool", .pyStr name), ("error", .pyStr e)]
  else .pyDict [("error", .pyStr ("未知工具: " ++ name))]

/-- The `Memory` dataclass of src/agent.py. -/
structure Memory where
  file_path : String
  overview : String
  key_definitions : List String
  core_logic : String
  dependencies : List String
  needed_info : String
  deriving DecidableEq, Repr

/-- The `Memory(...)` construction from a parsed memory dict in
`ReadAgent.ask`. -/
def toMemory (md : MemoryData) : Memory :=
  { file_path := md.file
    overview := md.overview
    key_definitions := md.key_definitions
    core_logic := md.core_logic
    dependencies := md.dependencies
    needed_info := md.needed_info }

/-- Remove the first record whose `file_path` equals `p`
(`self.memories.remove(existing[0])`; dataclass equality removes exactly the
first matching record, earlier records have a different path). -/
def removeFirstByPath : List Memory → String → List Memory
  | [], _ => []
  | m :: rest, p => if m.file_path = p then rest else m :: removeFirstByPath rest p

/-- The memory-upsert block of `ReadAgent.ask` (lines 422-438): an empty
`file` path is silently discarded, otherwise any existing record with the
same path is removed and the new record appended. -/
def upsertMemory (mems : List Memory) (md : MemoryData) : List Memory :=
  if md.file = "" then mems
  else removeFirstByPath mems md.file ++ [toMemory md]

/-- The `if memory_data:` guard around the upsert block. -/
def storeMemory (mems : List Memory) : Option MemoryData → List Memory
  | none => mems
  | some md => upsertMemory mems md

/-- A conversation turn. -/
structure Msg where
  role : String
  content : String
  deriving DecidableEq, Repr

/-- One entry of `self.steps` (the per-step dict; the `action_str` rendering
of the argument dict is abbreviated to the raw argument pairs). -/
structure StepInfo where
  step : Nat
  raw_response : String
  thought : String
  action_str : String
  final_answer : Option String
  observation : Option PyVal
  deriving Repr

/-- The mutable attributes of a `ReadAgent` instance together with the
construction-time configuration the claims need. -/
structure AgentState where
  max_steps : Nat
  code_dir : String
  conversation_history : List Msg
  memories : List Memory
  steps : List StepInfo
  deriving Repr

/-- Render `f"{action}({action_args})"` (dict repr abbreviated). -/
def actionStr (name : String) (args : List (String × String)) : String :=
  if name = "" then ""
  else name ++ "(" ++ String.intercalate ", " (args.map (fun kv => kv.1 ++ "=" ++ kv.2)) ++ ")"

/-- The body of one iteration of the `for step in range(...)` loop of
`ReadAgent.ask` once the model response is in hand: parse, store any memory,
then either terminate with a final answer (appending it to history as an
assistant turn) or dispatch the action (appending the observation to history
as a user turn) and continue.  Returns the final answer when the loop
terminates, and the successor state.  Streaming echo and `_format_output`
presentation are elided; the answer text is the value they render. -/
def runStep (provider : Provider) (k : Nat) (response : String)
    (st : AgentState) : Option String × AgentState :=
  let tpl := extract_thought_action response
  let fa := extract_final_answer response
  let info0 : StepInfo :=
    { step := k, raw_response := response, thought := tpl.1
      action_str := actionStr tpl.2.1 tpl.2.2
      final_answer := none, observation := none }
  let st1 := { st with memories := storeMemory st.memories fa.2 }
  if fa.1 ≠ "" then
    (some fa.1,
      { st1 with
        steps := st1.steps ++ [{ info0 with final_answer := some fa.1 }]
        conversation_history :=
          st1.conversation_history ++ [{ role := "assistant", content := fa.1 }] })
  else if tpl.2.1 ≠ "" then
    let obs := execute_tool provider tpl.2.1 tpl.2.2
    (none,
      { st1 with
        steps := st1.steps ++ [{ info0 with observation := some obs }]
        conversation_history :=
          st1.conversation_history ++
            [{ role := "user", content := "Observation: " ++ pyDump obs }] })
  else (none, { st1 with steps := st1.steps ++ [info0] })

/-- An LLM transport oracle: the fully assembled response text for the k-th
loop step of the current question, or a raised transport exception
(`ReadAgent._call_llm` re-raises every failure).  The assembled message list
is determined by the state, so the oracle is indexed by the step number. -/
def Transport : Type := Nat → Except String String

/-- The advisory message returned when the step budget is exhausted. -/
def budgetMsg : String := "已达到最大步骤数限制，请尝试更具体的问题。"

/-- The step loop of `ReadAgent.ask`: runs up to `fuel` more iterations
starting at step number `k`; a transport exception propagates, leaving the
state exactly as it was before the failing call. -/
def askLoop (provider : Provider) (transport : Transport) :
    Nat → Nat → AgentState → Except String String × AgentState
  | 0, _, st => (.ok budgetMsg, st)
  | fuel + 1, k, st =>
    match transport k with
    | .error e => (.error e, st)
    | .ok response =>
      match runStep provider k response st with
      | (some ans, st1) => (.ok ans, st1)
      | (none, st1) => askLoop provider transport fuel (k + 1) st1

/-- Embeds `ReadAgent.ask`: reset the per-question step records, append the
question to history as a user turn, then drive the loop for at most
`max_steps` steps. -/
def ask (provider : Provider) (transport : Transport) (st : AgentState)
    (question : String) : Except String String × AgentState :=
  askLoop provider transport st.max_steps 1
    { st with
      steps := []
      conversation_history :=
        st.conversation_history ++ [{ role := "user", content := question }] }

/-- Embeds `ReadAgent.clear_history`: empties history, memories and steps. -/
def clear_history (st : AgentState) : AgentState :=
  { st with conversation_history := [], memories := [], steps := [] }

/-- Embeds `ReadAgent.get_stats`. -/
def get_stats (st : AgentState) : PyVal :=
  .pyDict
    [("conversation_length", .pyInt st.conversation_history.length),
     ("memory_count", .pyInt st.memories.length),
     ("total_steps", .pyInt st.steps.length),
     ("code_dir", .pyStr st.code_dir)]

/-- Distinct file keys in first-seen order. -/
def firstSeenKeys (ms : List MemoryData) : List String :=
  ms.foldl (fun acc md => if acc.contains md.file then acc else acc ++ [md.file]) []

/-- The last record of the sequence carrying the given key. -/
def lastWithKey (ms : List MemoryData) (k : String) : Option MemoryData :=
  (ms.filter (fun md => decide (md.file = k))).getLast?

/-- Follows the spec sentence for the store reached by a sequence of
upserts: the last record per distinct key, with distinct keys in first-seen
insertion order.  This is the claim-side prediction, kept separate from the
code-side `upsertMemory` fold so the two can be compared. -/
def specFinalStore (ms : List MemoryData) : List Memory :=
  (firstSeenKeys ms).filterMap (fun k => (lastWithKey ms k).map toMemory)

/-- Keep only the last record per key, in order of last occurrence. -/
def lastOnly : List MemoryData → List MemoryData
  | [] => []
  | md :: rest =>
    if rest.any (fun x => x.file = md.file) then lastOnly rest
    else md :: lastOnly rest

/-- The store actually reached by a sequence of upserts: records with empty
paths are discarded, and each surviving key holds its last record, keys
ordered by most recent upsert (a re-upsert moves the record to the end). -/
def lastUpsertStore (ms : List MemoryData) : List Memory :=
  (lastOnly (ms.filter (fun md => decide (md.file ≠ "")))).map toMemory

/-- The assistant turns of a conversation history. -/
def assistantTurns (h : List Msg) : List Msg :=
  h.filter (fun m => decide (m.role = "assistant"))

/-- Every stored record carries a non-empty file path. -/
def nonemptyPaths (mems : List Memory) : Bool :=
  mems.all (fun m => decide (m.file_path ≠ ""))

/-- Position of the leftmost occurrence of `d` in `s`. -/
def firstOcc (d s : List Char) : Option Nat := (occs d s).head?

/-- The canonical six-line memory block, exactly as the system prompt of
`ReadAgent._think_and_act` instructs the model to produce it. -/
def memBlock (v1 v2 v3 v4 v5 v6 : List Char) : List Char :=
  mMemory ++ ['\n'] ++ lFile ++ [' '] ++ v1 ++ dOver ++ [' '] ++ v2 ++
    dKey ++ [' '] ++ v3 ++ dCore ++ [' '] ++ v4 ++ dDep ++ [' '] ++ v5 ++
    dNeed ++ [' '] ++ v6

/-- The boundary character, when there is one, is not whitespace. -/
def boundaryOk : Option Char → Bool
  | some c => !isPySpace c
  | none => true

/-- A single-line field value in clean form: nonempty, no newline, no
leading or trailing whitespace (so that stripping is the identity). -/
def cleanVal (v : List Char) : Bool :=
  decide (v ≠ []) && boundaryOk v.head? && boundaryOk v.getLast? &&
    v.all (fun c => decide (c ≠ '\n'))

/-- Suffix of the canonical block from the value of `needed_info:` on. -/
def memTail6 (v6 : List Char) : List Char := [' '] ++ v6

/-- Suffix of the canonical block from the value of `dependencies:` on. -/
def memTail5 (v5 v6 : List Char) : List Char :=
  [' '] ++ v5 ++ (dNeed ++ memTail6 v6)

/-- Suffix of the canonical block from the value of `core_logic:` on. -/
def memTail4 (v4 v5 v6 : List Char) : List Char :=
  [' '] ++ v4 ++ (dDep ++ memTail5 v5 v6)

/-- Suffix of the canonical block from the value of `key_definitions:` on. -/
def memTail3 (v3 v4 v5 v6 : List Char) : List Char :=
  [' '] ++ v3 ++ (dCore ++ memTail4 v4 v5 v6)

/-- Suffix of the canonical block from the value of `overview:` on. -/
def memTail2 (v2 v3 v4 v5 v6 : List Char) : List Char :=
  [' '] ++ v2 ++ (dKey ++ memTail3 v3 v4 v5 v6)

/-- Suffix of the canonical block from the value of `file:` on. -/
def memTail1 (v1 v2 v3 v4 v5 v6 : List Char) : List Char :=
  [' '] ++ v1 ++ (dOver ++ memTail2 v2 v3 v4 v5 v6)

theorem firstHit_nil (f : Nat → Option α) : firstHit f [] = none := rfl

theorem firstHit_cons_some (f : Nat → Option α) (q : Nat) (qs : List Nat)
    (r : α) (h : f q = some r) : firstHit f (q :: qs) = some r := by
  simp [firstHit, h]

theorem firstHit_some_mem (f : Nat → Option α) (l : List Nat) (r : α)
    (h : firstHit f l = some r) : ∃ q ∈ l, f q = some r := by
  induction l with
  | nil => simp [firstHit] at h
  | cons q qs ih =>
    by_cases hq : ∃ x, f q = some x
    · obtain ⟨x, hx⟩ := hq
      rw [firstHit_cons_some f q qs x hx] at h
      exact ⟨q, List.mem_cons_self q qs, hx ▸ h⟩
    · push_neg at hq
      have hnone : f q = none := by
        cases hfq : f q with
        | none => rfl
        | some x => exact absurd hfq (hq x)
      simp [firstHit, hnone] at h
      obtain ⟨q2, hmem, hfq2⟩ := ih h
      exact ⟨q2, List.mem_cons_of_mem q hmem, hfq2⟩

/--
C8.  Reset semantics: `clear()` empties the conversation history, the memory
store and the step records, and an immediately following `stats()` reports
history length, memory count and step count all as zero.
-/
theorem clear_resets_stats (st : AgentState) :
    get_stats (clear_history st) =
      .pyDict
        [("conversation_length", .pyInt 0), ("memory_count", .pyInt 0),
         ("total_steps", .pyInt 0), ("code_dir", .pyStr st.code_dir)] ∧
    (clear_history st).conversation_history = [] ∧
    (clear_history st).memories = [] ∧
    (clear_history st).steps = [] :=
  ⟨rfl, rfl, rfl, rfl⟩

/--
C2 counterexample.  The claim states that dispatching an unregistered tool
name returns a structured failure object of shape
`{success:false, tool:name, error:...}`.  On the concrete input
`execute_tool _ "nope" []` the code returns the bare dict
`{error: "未知工具: nope"}`, whose only key is `error`: there is no
`success` and no `tool` field, so the claimed shape is false.
-/
theorem execute_tool_unknown_shape_counterexample :
    execute_tool (fun _ _ => Except.error "unused") "nope" [] =
      .pyDict [("error", .pyStr "未知工具: nope")] ∧
    pyKeys (execute_tool (fun _ _ => Except.error "unused") "nope" []) =
      ["error"] :=
  ⟨rfl, rfl⟩

/--
C2 (amended).  Tool dispatch contract: `execute_tool` is a total function
(no exception escapes).  For an unregistered name it returns the bare dict
`{error: "未知工具: <name>"}` (without `success`/`tool` keys); for a
registered name whose bound operation raises it returns
`{success:false, tool:name, error:message}`; for a registered name whose
bound operation succeeds it returns `{success:true, tool:name, result:...}`.
-/
theorem execute_tool_result_shapes (provider : Provider) (name : String)
    (args : List (String × String)) :
    (toolRegistry.contains name = false →
      execute_tool provider name args =
        .pyDict [("error", .pyStr ("未知工具: " ++ name))]) ∧
    (∀ e, toolRegistry.contains name = true → provider name args = .error e →
      execute_tool provider name args =
        .pyDict [("success", .pyBool false), ("tool", .pyStr name),
                 ("error", .pyStr e)]) ∧
    (∀ v, toolRegistry.contains name = true → provider name args = .ok v →
      execute_tool provider name args =
        .pyDict [("success", .pyBool true), ("tool", .pyStr name),
                 ("result", v)]) := by
  refine ⟨fun h => ?_, fun e hreg h => ?_, fun v hreg h => ?_⟩
  · simp only [execute_tool, h]; simp
  · simp only [execute_tool, h, hreg]; simp
  · simp only [execute_tool, h, hreg]; simp

/-- Witness for C2: concrete dispatches through each of the three shapes. -/
theorem execute_tool_result_shapes_witness :
    execute_tool (fun _ _ => Except.ok (PyVal.pyStr "data")) "read_file"
        [("path", "x")] =
      .pyDict [("success", .pyBool true), ("tool", .pyStr "read_file"),
               ("result", .pyStr "data")] ∧
    execute_tool (fun _ _ => Except.error "boom") "read_file" [] =
      .pyDict [("success", .pyBool false), ("tool", .pyStr "read_file"),
               ("error", .pyStr "boom")] ∧
    execute_tool (fun _ _ => Except.ok (PyVal.pyStr "data")) "nope" [] =
      .pyDict [("error", .pyStr "未知工具: nope")] :=
  ⟨(execute_tool_result_shapes _ "read_file" _).2.2 _ rfl rfl,
   (execute_tool_result_shapes _ "read_file" _).2.1 _ rfl rfl,
   (execute_tool_result_shapes _ "nope" _).1 rfl⟩

/--
C7.  Transport failure atomicity: a transport exception at any step is
propagated to the caller of `ask` as an error, terminating the loop, and
the failing call leaves the state (memory store and accumulated
conversation history) exactly as it was before the call; at the `ask` level
the state carries only the pre-loop mutations (step records reset, the
question appended as a user turn) and the memory store is untouched.
-/
theorem transport_failure_atomicity :
    (∀ (provider : Provider) (transport : Transport) (fuel k : Nat)
        (st : AgentState) (e : String),
      transport k = .error e →
      askLoop provider transport (fuel + 1) k st = (.error e, st)) ∧
    (∀ (provider : Provider) (transport : Transport) (st : AgentState)
        (q e : String) (m : Nat),
      st.max_steps = m + 1 → transport 1 = .error e →
      ask provider transport st q =
        (.error e,
          { st with
            steps := []
            conversation_history :=
              st.conversation_history ++ [{ role := "user", content := q }] })) := by
  constructor
  · intro provider transport fuel k st e h
    simp [askLoop, h]
  · intro provider transport st q e m hm h
    simp [ask, hm, askLoop, h]

/-- Witness for C7: a transport that fails at once propagates `boom` and
leaves the store and prior history intact. -/
theorem transport_failure_atomicity_witness :
    askLoop (fun _ _ => Except.ok (PyVal.pyStr "")) (fun _ => Except.error "boom")
        3 1 ⟨3, "/repo", [], [], []⟩ =
      (.error "boom", ⟨3, "/repo", [], [], []⟩) ∧
    ask (fun _ _ => Except.ok (PyVal.pyStr "")) (fun _ => Except.error "boom")
        ⟨3, "/repo", [], [], []⟩ "q" =
      (.error "boom",
        ⟨3, "/repo", [{ role := "user", content := "q" }], [], []⟩) :=
  ⟨transport_failure_atomicity.1 _ _ 2 1 _ "boom" rfl,
   transport_failure_atomicity.2 _ _ _ "q" "boom" 2 rfl rfl⟩

theorem runStep_final (provider : Provider) (k : Nat) (r : String)
    (st : AgentState) (hans : (extract_final_answer r).1 ≠ "") :
    runStep provider k r st =
      (some (extract_final_answer r).1,
        { st with
          memories := storeMemory st.memories (extract_final_answer r).2
          steps := st.steps ++
            [{ step := k, raw_response := r
               thought := (extract_thought_action r).1
               action_str := actionStr (extract_thought_action r).2.1
                 (extract_thought_action r).2.2
               final_answer := some (extract_final_answer r).1
               observation := none }]
          conversation_history := st.conversation_history ++
            [{ role := "assistant", content := (extract_final_answer r).1 }] }) := by
  simp [runStep, hans]

theorem runStep_not_final (provider : Provider) (k : Nat) (r : String)
    (st : AgentState) (hans : (extract_final_answer r).1 = "") :
    (runStep provider k r st).1 = none ∧
    (runStep provider k r st).2.memories =
      storeMemory st.memories (extract_final_answer r).2 := by
  by_cases hact : (extract_thought_action r).2.1 ≠ "" <;> simp [runStep, hans, hact]

theorem runStep_memories (provider : Provider) (k : Nat) (r : String)
    (st : AgentState) :
    (runStep provider k r st).2.memories =
      storeMemory st.memories (extract_final_answer r).2 := by
  by_cases hans : (extract_final_answer r).1 ≠ "" <;>
    by_cases hact : (extract_thought_action r).2.1 ≠ "" <;>
      simp [runStep, hans, hact]

/--
C4.  Final-answer precedence: when a response carries both an `Action:`
tool call and a nonempty `Final Answer:`, the loop terminates with the
answer, appends it to history as an assistant turn, records the step with
no observation, and never dispatches the action.
-/
theorem final_answer_precedence (provider : Provider) (transport : Transport)
    (fuel k : Nat) (st : AgentState) (r : String)
    (h : transport k = .ok r)
    (hact : (extract_thought_action r).2.1 ≠ "")
    (hans : (extract_final_answer r).1 ≠ "") :
    (askLoop provider transport (fuel + 1) k st).1 =
      .ok ((extract_final_answer r).1) ∧
    (askLoop provider transport (fuel + 1) k st).2.conversation_history =
      st.conversation_history ++
        [{ role := "assistant", content := (extract_final_answer r).1 }] ∧
    ∃ info : StepInfo,
      (askLoop provider transport (fuel + 1) k st).2.steps = st.steps ++ [info] ∧
      info.observation = none ∧
      info.final_answer = some ((extract_final_answer r).1) := by
  have hr := runStep_final provider k r st hans
  have hloop : askLoop provider transport (fuel + 1) k st =
      (.ok ((extract_final_answer r).1), (runStep provider k r st).2) := by
    simp only [askLoop, h, hr]
  rw [hloop, hr]
  refine ⟨rfl, rfl, ⟨_, rfl, rfl, rfl⟩⟩

/-- Witness for C4 at a concrete over-producing response. -/
theorem final_answer_precedence_witness :
    (askLoop (fun _ _ => Except.ok (PyVal.pyStr "out"))
        (fun _ => Except.ok "Thought: t\nAction: read_file(path=\"x\")\nFinal Answer: done")
        1 1 ⟨5, "d", [], [], []⟩).1 =
      .ok ((extract_final_answer
        "Thought: t\nAction: read_file(path=\"x\")\nFinal Answer: done").1) ∧
    (askLoop (fun _ _ => Except.ok (PyVal.pyStr "out"))
        (fun _ => Except.ok "Thought: t\nAction: read_file(path=\"x\")\nFinal Answer: done")
        1 1 ⟨5, "d", [], [], []⟩).2.conversation_history =
      [] ++ [{ role := "assistant",
               content := (extract_final_answer
                 "Thought: t\nAction: read_file(path=\"x\")\nFinal Answer: done").1 }] ∧
    ∃ info : StepInfo,
      (askLoop (fun _ _ => Except.ok (PyVal.pyStr "out"))
          (fun _ => Except.ok "Thought: t\nAction: read_file(path=\"x\")\nFinal Answer: done")
          1 1 ⟨5, "d", [], [], []⟩).2.steps = [] ++ [info] ∧
      info.observation = none ∧
      info.final_answer = some ((extract_final_answer
        "Thought: t\nAction: read_file(path=\"x\")\nFinal Answer: done").1) :=
  final_answer_precedence _ _ 0 1 _ _ rfl (by decide) (by decide)

/--
C9 (implicit).  A step whose response carries a well-formed memory block but
no final answer still upserts the parsed record into the memory store, and
the loop then continues with the next step: memory storage is not
conditional on termination.
-/
theorem memory_stored_without_final_answer (provider : Provider)
    (transport : Transport) (fuel k : Nat) (st : AgentState) (r : String)
    (md : MemoryData)
    (h : transport k = .ok r)
    (hans : (extract_final_answer r).1 = "")
    (hmd : (extract_final_answer r).2 = some md)
    (hfile : md.file ≠ "") :
    (runStep provider k r st).1 = none ∧
    (runStep provider k r st).2.memories =
      removeFirstByPath st.memories md.file ++ [toMemory md] ∧
    askLoop provider transport (fuel + 1) k st =
      askLoop provider transport fuel (k + 1) (runStep provider k r st).2 := by
  obtain ⟨h1, h2⟩ := runStep_not_final provider k r st hans
  refine ⟨h1, ?_, ?_⟩
  · rw [h2, hmd]
    simp [storeMemory, upsertMemory, hfile]
  · cases hrs : runStep provider k r st with
    | mk o st1 =>
      rw [hrs] at h1
      simp at h1
      subst h1
      simp only [askLoop, h, hrs]

/-- Witness for C9: a response with a memory block and no final answer. -/
theorem memory_stored_without_final_answer_witness :
    (runStep (fun _ _ => Except.ok (PyVal.pyStr "out")) 1
        "Thought: t\nMemory:\nfile: a\noverview: o\nkey_definitions: k\ncore_logic: c\ndependencies: d\nneeded_info: n"
        ⟨2, "d", [], [], []⟩).1 = none ∧
    (runStep (fun _ _ => Except.ok (PyVal.pyStr "out")) 1
        "Thought: t\nMemory:\nfile: a\noverview: o\nkey_definitions: k\ncore_logic: c\ndependencies: d\nneeded_info: n"
        ⟨2, "d", [], [], []⟩).2.memories =
      removeFirstByPath [] "a" ++ [toMemory ⟨"a", "o", ["k"], "c", ["d"], "n"⟩] ∧
    askLoop (fun _ _ => Except.ok (PyVal.pyStr "out"))
        (fun _ => Except.ok "Thought: t\nMemory:\nfile: a\noverview: o\nkey_definitions: k\ncore_logic: c\ndependencies: d\nneeded_info: n")
        (1 + 1) 1 ⟨2, "d", [], [], []⟩ =
      askLoop (fun _ _ => Except.ok (PyVal.pyStr "out"))
        (fun _ => Except.ok "Thought: t\nMemory:\nfile: a\noverview: o\nkey_definitions: k\ncore_logic: c\ndependencies: d\nneeded_info: n")
        1 (1 + 1)
        (runStep (fun _ _ => Except.ok (PyVal.pyStr "out")) 1
          "Thought: t\nMemory:\nfile: a\noverview: o\nkey_definitions: k\ncore_logic: c\ndependencies: d\nneeded_info: n"
          ⟨2, "d", [], [], []⟩).2 :=
  memory_stored_without_final_answer _ _ 1 1 _ _ ⟨"a", "o", ["k"], "c", ["d"], "n"⟩
    rfl (by decide) (by decide) (by decide)

theorem nonemptyPaths_removeFirst (mems : List Memory) (p : String)
    (h : nonemptyPaths mems = true) :
    nonemptyPaths (removeFirstByPath mems p) = true := by
  induction mems with
  | nil => exact h
  | cons m rest ih =>
    simp only [nonemptyPaths, List.all_cons, Bool.and_eq_true] at h
    by_cases hm : m.file_path = p
    · rw [removeFirstByPath, if_pos hm]
      exact h.2
    · rw [removeFirstByPath, if_neg hm]
      simp only [nonemptyPaths, List.all_cons, Bool.and_eq_true]
      exact ⟨h.1, ih h.2⟩

theorem nonemptyPaths_store (mems : List Memory) (o : Option MemoryData)
    (h : nonemptyPaths mems = true) :
    nonemptyPaths (storeMemory mems o) = true := by
  cases o with
  | none => exact h
  | some md =>
    by_cases hf : md.file = ""
    · simp [storeMemory, upsertMemory, hf, h]
    · simp only [storeMemory, upsertMemory, hf, if_false]
      have h1 := nonemptyPaths_removeFirst mems md.file h
      simp [nonemptyPaths, List.all_append] at h1 ⊢
      exact ⟨h1, by simp [toMemory, hf]⟩

theorem askLoop_memories_inv (provider : Provider) (transport : Transport) :
    ∀ (fuel k : Nat) (st : AgentState), nonemptyPaths st.memories = true →
      nonemptyPaths (askLoop provider transport fuel k st).2.memories = true := by
  intro fuel
  induction fuel with
  | zero => intro k st h; simpa [askLoop] using h
  | succ n ih =>
    intro k st h
    cases ht : transport k with
    | error e => simpa [askLoop, ht] using h
    | ok r =>
      have hmem : nonemptyPaths (runStep provider k r st).2.memories = true := by
        rw [runStep_memories]
        exact nonemptyPaths_store _ _ h
      cases hrs : runStep provider k r st with
      | mk o st1 =>
        rw [hrs] at hmem
        cases o with
        | some ans => simpa [askLoop, ht, hrs] using hmem
        | none =>
          simp only [askLoop, ht, hrs]
          exact ih (k + 1) st1 hmem

/--
C10 (implicit invariant).  A parsed memory block whose `file` field is empty
after trimming is silently discarded, leaving the store unchanged; and every
record in the memory store has a non-empty `file_path` -- the invariant is
preserved by a single store operation and by a whole `ask` call.
-/
theorem memory_nonempty_path_invariant :
    (∀ (mems : List Memory) (md : MemoryData),
      md.file = "" → upsertMemory mems md = mems) ∧
    (∀ (mems : List Memory) (o : Option MemoryData),
      nonemptyPaths mems = true → nonemptyPaths (storeMemory mems o) = true) ∧
    (∀ (provider : Provider) (transport : Transport) (st : AgentState)
        (q : String),
      nonemptyPaths st.memories = true →
      nonemptyPaths (ask provider transport st q).2.memories = true) := by
  refine ⟨fun mems md hf => by simp [upsertMemory, hf], nonemptyPaths_store, ?_⟩
  intro provider transport st q h
  exact askLoop_memories_inv provider transport st.max_steps 1 _ h

/-- Witness for C10: an empty-file record is dropped and a tiny `ask` run
preserves the invariant. -/
theorem memory_nonempty_path_invariant_witness :
    upsertMemory [toMemory ⟨"a", "", [], "", [], ""⟩] ⟨"", "o", [], "", [], ""⟩ =
      [toMemory ⟨"a", "", [], "", [], ""⟩] ∧
    nonemptyPaths (storeMemory [] (some ⟨"", "o", [], "", [], ""⟩)) = true ∧
    nonemptyPaths
      (ask (fun _ _ => Except.ok (PyVal.pyStr "out"))
        (fun _ => Except.ok "Thought: hmm") ⟨1, "d", [], [], []⟩ "q").2.memories =
      true :=
  ⟨memory_nonempty_path_invariant.1 _ _ rfl,
   memory_nonempty_path_invariant.2.1 [] _ rfl,
   memory_nonempty_path_invariant.2.2 _ _ ⟨1, "d", [], [], []⟩ "q" rfl⟩

theorem occs_of_containsSub_false (d s : List Char)
    (h : containsSub d s = false) : occs d s = [] := by
  simpa [containsSub] using h

theorem no_final_answer_of_not_contains (r : String)
    (h : containsSub mFinal (cs r) = false) :
    (extract_final_answer r).1 = "" := by
  have hocc := occs_of_containsSub_false mFinal (cs r) h
  cases hm : extractMemoryCore (cs r) <;>
    simp [extract_final_answer, extractField, hocc, firstHit, hm, stripChars,
      String.mk]

theorem assistantTurns_append_user (h : List Msg) (c : String) :
    assistantTurns (h ++ [{ role := "user", content := c }]) =
      assistantTurns h := by
  simp [assistantTurns]

theorem runStep_no_answer (provider : Provider) (k : Nat) (r : String)
    (st : AgentState) (hans : (extract_final_answer r).1 = "") :
    (runStep provider k r st).1 = none ∧
    (runStep provider k r st).2.steps.length = st.steps.length + 1 ∧
    assistantTurns (runStep provider k r st).2.conversation_history =
      assistantTurns st.conversation_history := by
  by_cases hact : (extract_thought_action r).2.1 ≠ "" <;>
    simp [runStep, hans, hact, assistantTurns_append_user]

theorem askLoop_budget (provider : Provider) (transport : Transport)
    (hok : ∀ k, ∃ r, transport k = .ok r ∧ containsSub mFinal (cs r) = false) :
    ∀ (fuel k : Nat) (st : AgentState),
      (askLoop provider transport fuel k st).1 = .ok budgetMsg ∧
      (askLoop provider transport fuel k st).2.steps.length =
        st.steps.length + fuel ∧
      assistantTurns (askLoop provider transport fuel k st).2.conversation_history =
        assistantTurns st.conversation_history := by
  intro fuel
  induction fuel with
  | zero => intro k st; simp [askLoop]
  | succ n ih =>
    intro k st
    obtain ⟨r, hr, hnf⟩ := hok k
    have hans := no_final_answer_of_not_contains r hnf
    obtain ⟨h1, h2, h3⟩ := runStep_no_answer provider k r st hans
    cases hrs : runStep provider k r st with
    | mk o st1 =>
      rw [hrs] at h1 h2 h3
      simp at h1 h2
      subst h1
      obtain ⟨g1, g2, g3⟩ := ih (k + 1) st1
      refine ⟨?_, ?_, ?_⟩ <;> simp only [askLoop, hr, hrs]
      · exact g1
      · rw [g2, h2]; omega
      · rw [g3]; exact h3

/--
C6.  Budget exhaustion: when no step's response contains `Final Answer:`,
the loop runs exactly `max_steps` steps (one step record per iteration),
returns the fixed budget-exhausted fallback message, and neither the
fallback message nor any of those steps is appended to conversation history
as an assistant turn.
-/
theorem budget_exhaustion (provider : Provider) (transport : Transport)
    (st : AgentState) (q : String)
    (hok : ∀ k, ∃ r, transport k = .ok r ∧ containsSub mFinal (cs r) = false) :
    (ask provider transport st q).1 = .ok budgetMsg ∧
    (ask provider transport st q).2.steps.length = st.max_steps ∧
    assistantTurns (ask provider transport st q).2.conversation_history =
      assistantTurns st.conversation_history := by
  obtain ⟨g1, g2, g3⟩ := askLoop_budget provider transport hok st.max_steps 1
    { st with
      steps := []
      conversation_history :=
        st.conversation_history ++ [{ role := "user", content := q }] }
  refine ⟨g1, ?_, ?_⟩
  · rw [ask, g2]; simp
  · rw [ask, g3]; exact assistantTurns_append_user _ q

/-- Witness for C6: three answer-free steps with `max_steps = 3`. -/
theorem budget_exhaustion_witness :
    (ask (fun _ _ => Except.ok (PyVal.pyStr "out"))
      (fun _ => Except.ok "Thought: hmm") ⟨3, "d", [], [], []⟩ "q").1 =
      .ok budgetMsg ∧
    (ask (fun _ _ => Except.ok (PyVal.pyStr "out"))
      (fun _ => Except.ok "Thought: hmm") ⟨3, "d", [], [], []⟩ "q").2.steps.length = 3 ∧
    assistantTurns
      (ask (fun _ _ => Except.ok (PyVal.pyStr "out"))
        (fun _ => Except.ok "Thought: hmm") ⟨3, "d", [], [], []⟩ "q").2.conversation_history =
      assistantTurns [] :=
  budget_exhaustion _ _ ⟨3, "d", [], [], []⟩ "q"
    (fun _ => ⟨"Thought: hmm", rfl, by decide⟩)

theorem lastOnly_mem (ms : List MemoryData) (x : MemoryData)
    (h : x ∈ lastOnly ms) : x ∈ ms := by
  induction ms with
  | nil => simpa [lastOnly] using h
  | cons md rest ih =>
    rw [lastOnly] at h
    by_cases hc : rest.any (fun y => y.file = md.file)
    · rw [if_pos hc] at h
      exact List.mem_cons_of_mem md (ih h)
    · rw [if_neg hc] at h
      rcases List.mem_cons.mp h with h1 | h1
      · exact h1 ▸ List.mem_cons_self md rest
      · exact List.mem_cons_of_mem md (ih h1)

theorem lastOnly_nodup_keys (ms : List MemoryData) :
    ((lastOnly ms).map MemoryData.file).Nodup := by
  induction ms with
  | nil => simp [lastOnly]
  | cons md rest ih =>
    rw [lastOnly]
    by_cases hc : rest.any (fun y => y.file = md.file)
    · rw [if_pos hc]; exact ih
    · rw [if_neg hc]
      simp only [List.map_cons, List.nodup_cons]
      refine ⟨?_, ih⟩
      intro hmem
      obtain ⟨y, hy, hyf⟩ := List.mem_map.mp hmem
      have hyrest := lastOnly_mem rest y hy
      exact hc (List.any_eq_true.mpr ⟨y, hyrest, by simp [hyf]⟩)

theorem lastOnly_append_single (l : List MemoryData) (md : MemoryData) :
    lastOnly (l ++ [md]) =
      (lastOnly l).filter (fun x => decide (x.file ≠ md.file)) ++ [md] := by
  induction l with
  | nil => simp [lastOnly]
  | cons x l ih =>
    rw [List.cons_append, lastOnly]
    by_cases hx : x.file = md.file
    · have hc : (l ++ [md]).any (fun y => y.file = x.file) = true := by
        simp [List.any_append, hx.symm]
      rw [if_pos hc, ih, lastOnly]
      by_cases h2 : l.any (fun y => y.file = x.file)
      · rw [if_pos h2]
      · rw [if_neg h2, List.filter_cons]
        simp [hx]
    · have hc : (l ++ [md]).any (fun y => y.file = x.file) =
          l.any (fun y => y.file = x.file) := by
        simp [List.any_append]
        intro h
        exact absurd h.symm hx
      rw [lastOnly, hc]
      by_cases h2 : l.any (fun y => y.file = x.file)
      · rw [if_pos h2, if_pos h2, ih]
      · rw [if_neg h2, if_neg h2, ih, List.filter_cons]
        simp [hx]

theorem removeFirst_eq_filter (mems : List Memory) (k : String)
    (h : (mems.map Memory.file_path).Nodup) :
    removeFirstByPath mems k =
      mems.filter (fun m => decide (m.file_path ≠ k)) := by
  induction mems with
  | nil => rfl
  | cons m rest ih =>
    simp only [List.map_cons, List.nodup_cons] at h
    by_cases hm : m.file_path = k
    · have hall : ∀ a ∈ rest, a.file_path ≠ k := by
        intro a ha hak
        exact h.1 (List.mem_map.mpr ⟨a, ha, by rw [hak, hm]⟩)
      rw [removeFirstByPath, if_pos hm, List.filter_cons]
      rw [if_neg (by simp [hm])]
      symm
      rw [List.filter_eq_self]
      intro a ha
      simpa using hall a ha
    · rw [removeFirstByPath, if_neg hm, List.filter_cons]
      rw [if_pos (by simpa using hm)]
      rw [ih h.2]

theorem removeFirst_length (mems : List Memory) (k : String)
    (h : ∃ m ∈ mems, m.file_path = k) :
    (removeFirstByPath mems k).length + 1 = mems.length := by
  induction mems with
  | nil => simp at h
  | cons m rest ih =>
    by_cases hm : m.file_path = k
    · rw [removeFirstByPath, if_pos hm]
      simp
    · rw [removeFirstByPath, if_neg hm]
      obtain ⟨m1, hmem, hp⟩ := h
      rcases List.mem_cons.mp hmem with h1 | h1
      · exact absurd (h1 ▸ hp) hm
      · have := ih ⟨m1, h1, hp⟩
        simp only [List.length_cons]
        omega

theorem filter_map_toMemory (A : List MemoryData) (p : Memory → Bool) :
    (A.map toMemory).filter p = (A.filter (fun x => p (toMemory x))).map toMemory := by
  induction A with
  | nil => rfl
  | cons x l ih =>
    simp only [List.map_cons, List.filter_cons]
    by_cases hp : p (toMemory x)
    · rw [if_pos hp, if_pos hp, List.map_cons, ih]
    · rw [if_neg hp, if_neg hp, ih]

theorem upsert_fold (ms : List MemoryData) :
    List.foldl upsertMemory [] ms = lastUpsertStore ms := by
  induction ms using List.reverseRecOn with
  | nil => rfl
  | append_singleton ms md ih =>
    rw [List.foldl_append, List.foldl_cons, List.foldl_nil, ih]
    by_cases hf : md.file = ""
    · rw [upsertMemory, if_pos hf]
      rw [lastUpsertStore, lastUpsertStore, List.filter_append]
      simp [hf]
    · rw [upsertMemory, if_neg hf]
      rw [lastUpsertStore, lastUpsertStore, List.filter_append]
      have hsingle : List.filter (fun md => decide (md.file ≠ "")) [md] = [md] := by
        simp [hf]
      rw [hsingle, lastOnly_append_single]
      have hnodup : (((lastOnly (List.filter (fun md => decide (md.file ≠ "")) ms)).map
          toMemory).map Memory.file_path).Nodup := by
        rw [List.map_map]
        exact lastOnly_nodup_keys _
      rw [removeFirst_eq_filter _ _ hnodup, filter_map_toMemory, List.map_append]
      rfl

/--
C1 counterexample.  The claim predicts the final store holds distinct keys
in first-seen insertion order.  Upserting `a`, then `b`, then `a` again
yields the store `[b, a]` (the re-upserted record moves to the end), while
the first-seen order the claim predicts is `[a, b]`.
-/
theorem memory_upsert_first_seen_order_counterexample :
    List.foldl upsertMemory []
        [⟨"a", "1", [], "", [], ""⟩, ⟨"b", "", [], "", [], ""⟩,
         ⟨"a", "2", [], "", [], ""⟩] =
      [toMemory ⟨"b", "", [], "", [], ""⟩, toMemory ⟨"a", "2", [], "", [], ""⟩] ∧
    specFinalStore
        [⟨"a", "1", [], "", [], ""⟩, ⟨"b", "", [], "", [], ""⟩,
         ⟨"a", "2", [], "", [], ""⟩] =
      [toMemory ⟨"a", "2", [], "", [], ""⟩, toMemory ⟨"b", "", [], "", [], ""⟩] ∧
    List.foldl upsertMemory []
        [⟨"a", "1", [], "", [], ""⟩, ⟨"b", "", [], "", [], ""⟩,
         ⟨"a", "2", [], "", [], ""⟩] ≠
      specFinalStore
        [⟨"a", "1", [], "", [], ""⟩, ⟨"b", "", [], "", [], ""⟩,
         ⟨"a", "2", [], "", [], ""⟩] :=
  ⟨by decide, by decide, by decide⟩

/--
C1 (amended).  Memory store upsert semantics: an upsert replaces the whole
record sharing its `file_path` (no field-level merge) and leaves the record
count unchanged; for every sequence of upserts the final store equals the
last record per distinct key, with keys ordered by most recent upsert (a
re-upsert moves its record to the end of the store), records with empty
paths being discarded.
-/
theorem memory_upsert_last_per_key :
    (∀ ms : List MemoryData, List.foldl upsertMemory [] ms = lastUpsertStore ms) ∧
    (∀ (mems : List Memory) (md : MemoryData),
      md.file ≠ "" → (mems.map Memory.file_path).Nodup →
      (∃ m ∈ mems, m.file_path = md.file) →
      (upsertMemory mems md).length = mems.length ∧
      ∀ m ∈ upsertMemory mems md, m.file_path = md.file → m = toMemory md) := by
  refine ⟨upsert_fold, fun mems md hf hnodup hex => ?_⟩
  rw [upsertMemory, if_neg hf]
  constructor
  · rw [List.length_append, List.length_singleton]
    exact removeFirst_length mems md.file hex
  · intro m hm hpath
    rcases List.mem_append.mp hm with h1 | h1
    · rw [removeFirst_eq_filter _ _ hnodup] at h1
      have := List.of_mem_filter h1
      simp at this
      exact absurd hpath this
    · simpa using h1

/-- Witness for C1: a concrete replacing upsert keeps the count and stores
exactly the new record under the key. -/
theorem memory_upsert_last_per_key_witness :
    List.foldl upsertMemory [] [⟨"a", "1", [], "", [], ""⟩] =
      lastUpsertStore [⟨"a", "1", [], "", [], ""⟩] ∧
    (upsertMemory [toMemory ⟨"a", "1", [], "", [], ""⟩]
        ⟨"a", "2", [], "", [], ""⟩).length =
      [toMemory ⟨"a", "1", [], "", [], ""⟩].length ∧
    ∀ m ∈ upsertMemory [toMemory ⟨"a", "1", [], "", [], ""⟩]
        ⟨"a", "2", [], "", [], ""⟩,
      m.file_path = "a" → m = toMemory ⟨"a", "2", [], "", [], ""⟩ :=
  ⟨memory_upsert_last_per_key.1 [⟨"a", "1", [], "", [], ""⟩],
   (memory_upsert_last_per_key.2 [toMemory ⟨"a", "1", [], "", [], ""⟩]
      ⟨"a", "2", [], "", [], ""⟩ (by decide) (by decide)
      ⟨toMemory ⟨"a", "1", [], "", [], ""⟩, by decide, by decide⟩).1,
   (memory_upsert_last_per_key.2 [toMemory ⟨"a", "1", [], "", [], ""⟩]
      ⟨"a", "2", [], "", [], ""⟩ (by decide) (by decide)
      ⟨toMemory ⟨"a", "1", [], "", [], ""⟩, by decide, by decide⟩).2⟩

theorem filter_range_cons (P : Nat → Bool) (n q : Nat) (hq : q < n)
    (hP : P q = true) (hlt : ∀ x, x < q → P x = false) :
    ∃ rest, (List.range n).filter P = q :: rest := by
  have hsplit : n = q + (n - q) := by omega
  rw [hsplit, List.range_add, List.filter_append]
  have h1 : (List.range q).filter P = [] := by
    rw [List.filter_eq_nil]
    intro a ha
    simp [hlt a (List.mem_range.mp ha)]
  rw [h1, List.nil_append]
  obtain ⟨m, hm⟩ : ∃ m, n - q = m + 1 := ⟨n - q - 1, by omega⟩
  rw [hm, List.range_succ_eq_map, List.map_cons, List.filter_cons]
  simp only [Nat.add_zero, hP, if_pos]
  exact ⟨_, rfl⟩

theorem occs_cons_of (d s : List Char) (q : Nat)
    (h1 : takeEq d (s.drop q) = true)
    (h2 : ∀ x, x < q → takeEq d (s.drop x) = false)
    (h3 : q ≤ s.length) :
    ∃ rest, occs d s = q :: rest :=
  filter_range_cons _ (s.length + 1) q (by omega) h1 h2

theorem of_mem_occs (d s : List Char) (q : Nat) (h : q ∈ occs d s) :
    takeEq d (s.drop q) = true :=
  (List.mem_filter.mp h).2

theorem takeEq_ne_nil (d l : List Char) (hd : d ≠ [])
    (h : takeEq d l = true) : l ≠ [] := by
  intro hnil
  rw [hnil] at h
  simp [takeEq] at h
  exact hd h

theorem containsSub_of_takeEq (d s : List Char) (q : Nat) (hd : d ≠ [])
    (h : takeEq d (s.drop q) = true) : containsSub d s = true := by
  have hne := takeEq_ne_nil d (s.drop q) hd h
  have hq : q < s.length := by
    by_contra hc
    exact hne (List.drop_eq_nil_of_le (by omega))
  have hmem : q ∈ occs d s :=
    List.mem_filter.mpr ⟨List.mem_range.mpr (by omega), h⟩
  cases hocc : occs d s with
  | nil => rw [hocc] at hmem; exact absurd hmem (List.not_mem_nil q)
  | cons a l => simp [containsSub, hocc]

theorem candList_cons (ok : Nat → Bool) (p W n q : Nat)
    (hok : ok q = true) (hge : p + W + 1 ≤ q) (hle : q ≤ n)
    (hmin : ∀ x, p + W + 1 ≤ x → x < q → ok x = false) :
    ∃ rest, candList ok p W n = q :: rest := by
  obtain ⟨rest1, hrest1⟩ :=
    filter_range_cons (fun x => ok x && decide (p + W + 1 ≤ x)) (n + 1) q
      (by omega) (by simp [hok, hge])
      (fun x hx => by
        by_cases hcase : p + W + 1 ≤ x
        · simp [hmin x hcase hx]
        · simp [hcase])
  exact ⟨_, by rw [candList, hrest1, List.cons_append]⟩

theorem wsLen_append (w : List Char) (c : Char) (t : List Char)
    (hw : ∀ x ∈ w, isPySpace x = true) (hc : isPySpace c = false) :
    wsLen (w ++ c :: t) = w.length := by
  induction w with
  | nil => simp [wsLen, List.takeWhile, hc]
  | cons a w ih =>
    have ha : isPySpace a = true := hw a (List.mem_cons_self a w)
    have ih2 := ih (fun x hx => hw x (List.mem_cons_of_mem a hx))
    rw [wsLen] at ih2
    simp only [List.cons_append, wsLen, List.takeWhile_cons, ha, if_true,
      List.length_cons]
    omega

theorem drop_of_drop_append (s : List Char) (p : Nat) (a b : List Char)
    (h : s.drop p = a ++ b) : s.drop (p + a.length) = b := by
  rw [← List.drop_drop, h, List.drop_left]

theorem takeEq_append_self (d r : List Char) : takeEq d (d ++ r) = true := by
  simp [takeEq, List.take_left]

theorem head_of_takeEq (d l : List Char) (c : Char) (hd : d.head? = some c)
    (h : takeEq d l = true) : l.head? = some c := by
  simp only [takeEq, decide_eq_true_eq] at h
  cases d with
  | nil => simp at hd
  | cons d0 dt =>
    cases l with
    | nil => simp at h
    | cons l0 lt =>
      simp only [List.length_cons, List.take_succ_cons] at h
      injection h with h1 h2
      simp only [List.head?_cons] at hd ⊢
      rw [h1]
      exact hd

theorem drop_append_len (a b : List Char) (j : Nat) :
    (a ++ b).drop (a.length + j) = b.drop j := by
  rw [← List.drop_drop, List.drop_left]

theorem head_drop_in_middle (s : List Char) (p : Nat) (w v z : List Char)
    (hdrop : s.drop p = w ++ v ++ z) (x : Nat)
    (h1 : p + w.length ≤ x) (h2 : x < p + w.length + v.length) :
    ∃ c, c ∈ v ∧ (s.drop x).head? = some c := by
  have hx : x = p + (w.length + (x - p - w.length)) := by omega
  have hstep : s.drop (p + (w.length + (x - p - w.length))) =
      (v ++ z).drop (x - p - w.length) := by
    rw [← List.drop_drop, hdrop, List.append_assoc, drop_append_len]
  rw [← hx] at hstep
  have hj : x - p - w.length < v.length := by omega
  have hsplit : (v ++ z).drop (x - p - w.length) =
      v.drop (x - p - w.length) ++ z :=
    List.drop_append_of_le_length (by omega)
  cases hvd : v.drop (x - p - w.length) with
  | nil =>
    have := congrArg List.length hvd
    rw [List.length_drop] at this
    simp at this
    omega
  | cons c t =>
    refine ⟨c, ?_, ?_⟩
    · exact List.drop_subset _ v (hvd ▸ List.mem_cons_self c t)
    · rw [hstep, hsplit, hvd]
      rfl

theorem no_delim_between (s : List Char) (p : Nat) (w v z d : List Char)
    (hdrop : s.drop p = w ++ v ++ z) (hnl : '\n' ∉ v)
    (hd : d.head? = some '\n') :
    ∀ x, p + w.length ≤ x → x < p + w.length + v.length →
      takeEq d (s.drop x) = false := by
  intro x h1 h2
  cases hb : takeEq d (s.drop x) with
  | false => rfl
  | true =>
    exfalso
    obtain ⟨c, hcv, hhead⟩ := head_drop_in_middle s p w v z hdrop x h1 h2
    have hnl2 := head_of_takeEq d (s.drop x) '\n' hd hb
    rw [hnl2] at hhead
    injection hhead with hc
    exact hnl (hc ▸ hcv)

theorem cleanVal_ne_nil (v : List Char) (h : cleanVal v = true) : v ≠ [] := by
  simp only [cleanVal, Bool.and_eq_true, decide_eq_true_eq] at h
  exact h.1.1.1

theorem cleanVal_head (v : List Char) (h : cleanVal v = true) :
    ∀ c, v.head? = some c → isPySpace c = false := by
  simp only [cleanVal, Bool.and_eq_true, decide_eq_true_eq] at h
  intro c hc
  have := h.1.1.2
  rw [hc] at this
  simpa [boundaryOk] using this

theorem cleanVal_last (v : List Char) (h : cleanVal v = true) :
    ∀ c, v.getLast? = some c → isPySpace c = false := by
  simp only [cleanVal, Bool.and_eq_true, decide_eq_true_eq] at h
  intro c hc
  have := h.1.2
  rw [hc] at this
  simpa [boundaryOk] using this

theorem cleanVal_no_newline (v : List Char) (h : cleanVal v = true) :
    '\n' ∉ v := by
  simp only [cleanVal, Bool.and_eq_true, decide_eq_true_eq] at h
  intro hmem
  have := (List.all_eq_true.mp h.2) '\n' hmem
  simp at this

theorem dropWhile_eq_self_of_head (p : Char → Bool) (l : List Char)
    (h : ∀ c, l.head? = some c → p c = false) : l.dropWhile p = l := by
  cases l with
  | nil => rfl
  | cons c t =>
    rw [List.dropWhile_cons, h c rfl]
    simp

theorem stripChars_eq_self (v : List Char)
    (hh : ∀ c, v.head? = some c → isPySpace c = false)
    (hl : ∀ c, v.getLast? = some c → isPySpace c = false) :
    stripChars v = v := by
  rw [stripChars, dropWhile_eq_self_of_head isPySpace v hh]
  rw [dropWhile_eq_self_of_head isPySpace v.reverse
    (fun c hc => hl c (by rwa [List.head?_reverse] at hc))]
  exact List.reverse_reverse v

theorem capDelim_first {α : Type} (s : List Char) (p : Nat)
    (d w v rest : List Char) (next : Nat → Option α) (r : α)
    (hw : ∀ c ∈ w, isPySpace c = true)
    (hv : v ≠ [])
    (hvh : ∀ c, v.head? = some c → isPySpace c = false)
    (hnl : '\n' ∉ v)
    (hd : d.head? = some '\n')
    (hdrop : s.drop p = w ++ v ++ (d ++ rest))
    (hnext : next (p + w.length + v.length + d.length) = some r) :
    firstHit
      (fun q => (next (q + d.length)).map
        (fun x => (grabGroup s p (wsLen (s.drop p)) q, x)))
      (candList (fun q => takeEq d (s.drop q)) p (wsLen (s.drop p)) s.length) =
      some (v, r) := by
  obtain ⟨c0, t, hvct⟩ : ∃ c0 t, v = c0 :: t := by
    cases v with
    | nil => exact absurd rfl hv
    | cons c0 t => exact ⟨c0, t, rfl⟩
  have hc0 : isPySpace c0 = false := hvh c0 (by rw [hvct]; rfl)
  have hW : wsLen (s.drop p) = w.length := by
    rw [hdrop, hvct, List.append_assoc, List.cons_append]
    exact wsLen_append w c0 _ hw hc0
  have hvpos : 1 ≤ v.length := by rw [hvct]; simp
  have hdtail : s.drop (p + (w.length + v.length)) = d ++ rest := by
    have h0 := drop_of_drop_append s p (w ++ v) (d ++ rest)
      (by rw [hdrop, List.append_assoc])
    rwa [List.length_append] at h0
  have hq : takeEq d (s.drop (p + w.length + v.length)) = true := by
    rw [Nat.add_assoc, hdtail]
    exact takeEq_append_self d rest
  have hdne : d ≠ [] := by
    cases d with
    | nil => simp at hd
    | cons a b => simp
  have hqlt : p + w.length + v.length < s.length := by
    have hne : s.drop (p + (w.length + v.length)) ≠ [] := by
      rw [hdtail]
      cases d with
      | nil => exact absurd rfl hdne
      | cons a b => simp
    by_contra hc
    exact hne (List.drop_eq_nil_of_le (by omega))
  have hmin : ∀ x, p + w.length + 1 ≤ x → x < p + w.length + v.length →
      takeEq d (s.drop x) = false := by
    intro x hx1 hx2
    exact no_delim_between s p w v (d ++ rest) d hdrop hnl hd x (by omega) hx2
  obtain ⟨restc, hcand⟩ := candList_cons (fun q => takeEq d (s.drop q)) p
    w.length s.length (p + w.length + v.length) hq (by omega) (by omega)
    hmin
  rw [hW, hcand]
  apply firstHit_cons_some
  have hdropw : s.drop (p + w.length) = v ++ (d ++ rest) :=
    drop_of_drop_append s p w (v ++ (d ++ rest))
      (by rw [hdrop, List.append_assoc])
  have hgrab : grabGroup s p w.length (p + w.length + v.length) = v := by
    have hmin2 : min w.length (p + w.length + v.length - p - 1) = w.length :=
      Nat.min_eq_left (by omega)
    simp only [grabGroup, hmin2]
    rw [hdropw]
    have hidx : p + w.length + v.length - (p + w.length) = v.length := by omega
    rw [hidx, List.take_left]
  simp [hnext, hgrab]

theorem singleCap_delim (s : List Char) (p : Nat) (term w v rest : List Char)
    (hw : ∀ c ∈ w, isPySpace c = true)
    (hv : v ≠ [])
    (hvh : ∀ c, v.head? = some c → isPySpace c = false)
    (hnl : '\n' ∉ v)
    (hterm : term.head? = some '\n')
    (hdrop : s.drop p = w ++ v ++ (term ++ rest)) :
    singleCap term s p = some v := by
  obtain ⟨c0, t, hvct⟩ : ∃ c0 t, v = c0 :: t := by
    cases v with
    | nil => exact absurd rfl hv
    | cons c0 t => exact ⟨c0, t, rfl⟩
  have hc0 : isPySpace c0 = false := hvh c0 (by rw [hvct]; rfl)
  have hW : wsLen (s.drop p) = w.length := by
    rw [hdrop, hvct, List.append_assoc, List.cons_append]
    exact wsLen_append w c0 _ hw hc0
  have hvpos : 1 ≤ v.length := by rw [hvct]; simp
  have hdtail : s.drop (p + (w.length + v.length)) = term ++ rest := by
    have h0 := drop_of_drop_append s p (w ++ v) (term ++ rest)
      (by rw [hdrop, List.append_assoc])
    rwa [List.length_append] at h0
  have hq : takeEq term (s.drop (p + w.length + v.length)) = true := by
    rw [Nat.add_assoc, hdtail]
    exact takeEq_append_self term rest
  have htne : term ≠ [] := by
    cases term with
    | nil => simp at hterm
    | cons a b => simp
  have hqlt : p + w.length + v.length < s.length := by
    have hne : s.drop (p + (w.length + v.length)) ≠ [] := by
      rw [hdtail]
      cases term with
      | nil => exact absurd rfl htne
      | cons a b => simp
    by_contra hc
    exact hne (List.drop_eq_nil_of_le (by omega))
  have hmin : ∀ x, p + w.length + 1 ≤ x → x < p + w.length + v.length →
      endOk term s x = false := by
    intro x hx1 hx2
    obtain ⟨c, hcv, hhead⟩ :=
      head_drop_in_middle s p w v (term ++ rest) hdrop x (by omega) hx2
    have h1 : takeEq term (s.drop x) = false :=
      no_delim_between s p w v (term ++ rest) term hdrop hnl hterm x
        (by omega) hx2
    have h2 : s.drop x ≠ [] := by
      intro hc
      rw [hc] at hhead
      simp at hhead
    have h3 : s.drop x ≠ ['\n'] := by
      intro hc
      rw [hc] at hhead
      simp at hhead
      exact hnl (hhead ▸ hcv)
    simp [endOk, h1, h2, h3]
  have hok : endOk term s (p + w.length + v.length) = true := by
    simp [endOk, hq]
  obtain ⟨restc, hcand⟩ := candList_cons (endOk term s) p w.length s.length
    (p + w.length + v.length) hok (by omega) (by omega) hmin
  have hdropw : s.drop (p + w.length) = v ++ (term ++ rest) :=
    drop_of_drop_append s p w (v ++ (term ++ rest))
      (by rw [hdrop, List.append_assoc])
  have hgrab : grabGroup s p w.length (p + w.length + v.length) = v := by
    have hmin2 : min w.length (p + w.length + v.length - p - 1) = w.length :=
      Nat.min_eq_left (by omega)
    simp only [grabGroup, hmin2]
    rw [hdropw]
    have hidx : p + w.length + v.length - (p + w.length) = v.length := by omega
    rw [hidx, List.take_left]
  rw [singleCap, hW, hcand]
  apply firstHit_cons_some
  rw [hgrab]

theorem singleCap_end (s : List Char) (p : Nat) (term w v : List Char)
    (hw : ∀ c ∈ w, isPySpace c = true)
    (hv : v ≠ [])
    (hvh : ∀ c, v.head? = some c → isPySpace c = false)
    (hnl : '\n' ∉ v)
    (hterm : term.head? = some '\n')
    (hdrop : s.drop p = w ++ v) :
    singleCap term s p = some v := by
  obtain ⟨c0, t, hvct⟩ : ∃ c0 t, v = c0 :: t := by
    cases v with
    | nil => exact absurd rfl hv
    | cons c0 t => exact ⟨c0, t, rfl⟩
  have hc0 : isPySpace c0 = false := hvh c0 (by rw [hvct]; rfl)
  have hW : wsLen (s.drop p) = w.length := by
    rw [hdrop, hvct]
    exact wsLen_append w c0 t hw hc0
  have hvpos : 1 ≤ v.length := by rw [hvct]; simp
  have hpne : s.drop p ≠ [] := by
    rw [hdrop, hvct]
    cases w <;> simp
  have hple : p < s.length := by
    by_contra hc
    exact hpne (List.drop_eq_nil_of_le (by omega))
  have hlen : s.length - p = w.length + v.length := by
    rw [← List.length_drop, hdrop, List.length_append]
  have hntot : s.length = p + w.length + v.length := by omega
  have hdrop0 : s.drop p = w ++ v ++ [] := by rw [List.append_nil]; exact hdrop
  have hmin : ∀ x, p + w.length + 1 ≤ x → x < s.length →
      endOk term s x = false := by
    intro x hx1 hx2
    obtain ⟨c, hcv, hhead⟩ :=
      head_drop_in_middle s p w v [] hdrop0 x (by omega) (by omega)
    have h1 : takeEq term (s.drop x) = false :=
      no_delim_between s p w v [] term hdrop0 hnl hterm x (by omega) (by omega)
    have h2 : s.drop x ≠ [] := by
      intro hc
      rw [hc] at hhead
      simp at hhead
    have h3 : s.drop x ≠ ['\n'] := by
      intro hc
      rw [hc] at hhead
      simp at hhead
      exact hnl (hhead ▸ hcv)
    simp [endOk, h1, h2, h3]
  have hok : endOk term s s.length = true := by
    simp [endOk, List.drop_length]
  obtain ⟨restc, hcand⟩ := candList_cons (endOk term s) p w.length s.length
    s.length hok (by omega) (by omega) (fun x hx1 hx2 => hmin x hx1 hx2)
  have hdropw : s.drop (p + w.length) = v :=
    drop_of_drop_append s p w v hdrop
  have hgrab : grabGroup s p w.length s.length = v := by
    have hmin2 : min w.length (s.length - p - 1) = w.length :=
      Nat.min_eq_left (by omega)
    simp only [grabGroup, hmin2]
    rw [hdropw]
    have hidx : s.length - (p + w.length) = v.length := by omega
    rw [hidx, List.take_length]
  rw [singleCap, hW, hcand]
  apply firstHit_cons_some
  rw [hgrab]

theorem firstOcc_cons (d s : List Char) (q : Nat)
    (h : firstOcc d s = some q) : ∃ rest, occs d s = q :: rest := by
  rw [firstOcc] at h
  cases hocc : occs d s with
  | nil => rw [hocc] at h; simp at h
  | cons a l =>
    rw [hocc] at h
    simp at h
    exact ⟨l, by rw [h]⟩

theorem firstOcc_none (d s : List Char) (h : firstOcc d s = none) :
    occs d s = [] := by
  rw [firstOcc] at h
  cases hocc : occs d s with
  | nil => rfl
  | cons a l => rw [hocc] at h; simp at h

theorem thought_component (s : String) :
    (extract_thought_action s).1 =
      String.mk (stripChars ((extractField mThought tAction (cs s)).getD [])) := by
  cases hact : extractActionCore (cs s) <;> simp [extract_thought_action, hact]

/--
C5 counterexample.  The claim states the thought runs up to the next
recognized marker, `Final Answer:` included; on
`"Thought: A\nFinal Answer: B"` the claim therefore predicts thought `"A"`,
but the code only terminates the thought at a `\nAction:` marker, so it
returns `"A\nFinal Answer: B"`.
-/
theorem thought_marker_counterexample :
    (extract_thought_action "Thought: A\nFinal Answer: B").1 =
      "A\nFinal Answer: B" ∧
    (extract_thought_action "Thought: A\nFinal Answer: B").1 ≠ "A" :=
  ⟨by decide, by decide⟩

/--
C5 (amended).  Thought extraction: the parsed thought is the stripped text
following the first `Thought:` marker up to the next `\nAction:` marker or
the end of the string -- `Final Answer:` and `Memory:` markers do not
terminate it -- and when no `Thought:` marker is present the thought is the
empty string.  (Stated for values in clean single-line form, where
stripping is the identity.)
-/
theorem thought_extraction_amended :
    (∀ s : String, firstOcc mThought (cs s) = none →
      (extract_thought_action s).1 = "") ∧
    (∀ (s : String) (pT : Nat) (w mid rest : List Char),
      firstOcc mThought (cs s) = some pT →
      (cs s).drop (pT + mThought.length) = w ++ mid ++ (tAction ++ rest) →
      (∀ c ∈ w, isPySpace c = true) → cleanVal mid = true →
      (extract_thought_action s).1 = String.mk mid) ∧
    (∀ (s : String) (pT : Nat) (w mid : List Char),
      firstOcc mThought (cs s) = some pT →
      (cs s).drop (pT + mThought.length) = w ++ mid →
      (∀ c ∈ w, isPySpace c = true) → cleanVal mid = true →
      (extract_thought_action s).1 = String.mk mid) := by
  refine ⟨fun s h => ?_, fun s pT w mid rest h hdrop hw hmid => ?_,
    fun s pT w mid h hdrop hw hmid => ?_⟩
  · rw [thought_component, extractField, firstOcc_none _ _ h, firstHit_nil]
    rfl
  · obtain ⟨rest2, hocc⟩ := firstOcc_cons _ _ _ h
    have hcap := singleCap_delim (cs s) (pT + mThought.length) tAction w mid
      rest hw (cleanVal_ne_nil _ hmid) (cleanVal_head _ hmid)
      (cleanVal_no_newline _ hmid) rfl hdrop
    have hfield : extractField mThought tAction (cs s) = some mid := by
      rw [extractField, hocc]
      exact firstHit_cons_some _ _ _ _ hcap
    rw [thought_component, hfield]
    simp [stripChars_eq_self mid (cleanVal_head _ hmid) (cleanVal_last _ hmid)]
  · obtain ⟨rest2, hocc⟩ := firstOcc_cons _ _ _ h
    have hcap := singleCap_end (cs s) (pT + mThought.length) tAction w mid
      hw (cleanVal_ne_nil _ hmid) (cleanVal_head _ hmid)
      (cleanVal_no_newline _ hmid) rfl hdrop
    have hfield : extractField mThought tAction (cs s) = some mid := by
      rw [extractField, hocc]
      exact firstHit_cons_some _ _ _ _ hcap
    rw [thought_component, hfield]
    simp [stripChars_eq_self mid (cleanVal_head _ hmid) (cleanVal_last _ hmid)]

/-- Witness for C5: the three clauses at concrete responses. -/
theorem thought_extraction_witness :
    (extract_thought_action "no markers here").1 = "" ∧
    (extract_thought_action "Thought: plan\nAction: list_dir(path=\"x\")").1 =
      String.mk (cs "plan") ∧
    (extract_thought_action "Thought: done").1 = String.mk (cs "done") :=
  ⟨thought_extraction_amended.1 "no markers here" (by decide),
   thought_extraction_amended.2.1 "Thought: plan\nAction: list_dir(path=\"x\")"
     0 [' '] (cs "plan") (cs " list_dir(path=\"x\")") (by decide) (by decide)
     (by decide) (by decide),
   thought_extraction_amended.2.2 "Thought: done" 0 [' '] (cs "done")
     (by decide) (by decide) (by decide) (by decide)⟩

theorem wsLen_cons (c : Char) (l : List Char) :
    wsLen (c :: l) = if isPySpace c then wsLen l + 1 else 0 := by
  simp only [wsLen, List.takeWhile_cons]
  split <;> simp

theorem memStage6_canonical (s : List Char) (p : Nat) (v6 : List Char)
    (h6 : cleanVal v6 = true) (hdrop : s.drop p = memTail6 v6) :
    memStage6 s p = some v6 :=
  singleCap_end s p tMem [' '] v6 (by decide) (cleanVal_ne_nil _ h6)
    (cleanVal_head _ h6) (cleanVal_no_newline _ h6) rfl (by rw [hdrop]; rfl)

theorem memStage5_canonical (s : List Char) (p : Nat) (v5 v6 : List Char)
    (h5 : cleanVal v5 = true) (h6 : cleanVal v6 = true)
    (hdrop : s.drop p = memTail5 v5 v6) :
    memStage5 s p = some (v5, v6) := by
  have hdrop2 : s.drop p = [' '] ++ v5 ++ (dNeed ++ memTail6 v6) := by
    rw [hdrop]; rfl
  have hnext : memStage6 s (p + [' '].length + v5.length + dNeed.length) =
      some v6 := by
    apply memStage6_canonical s _ v6 h6
    have h0 := drop_of_drop_append s p ([' '] ++ v5 ++ dNeed) (memTail6 v6)
      (by rw [hdrop2]; simp [List.append_assoc])
    have hlen2 : p + ([' '] ++ v5 ++ dNeed).length =
        p + [' '].length + v5.length + dNeed.length := by
      simp [List.length_append]; omega
    rwa [hlen2] at h0
  exact capDelim_first s p dNeed [' '] v5 (memTail6 v6) (memStage6 s) v6
    (by decide) (cleanVal_ne_nil _ h5) (cleanVal_head _ h5)
    (cleanVal_no_newline _ h5) rfl hdrop2 hnext

theorem memStage4_canonical (s : List Char) (p : Nat) (v4 v5 v6 : List Char)
    (h4 : cleanVal v4 = true) (h5 : cleanVal v5 = true)
    (h6 : cleanVal v6 = true) (hdrop : s.drop p = memTail4 v4 v5 v6) :
    memStage4 s p = some (v4, v5, v6) := by
  have hdrop2 : s.drop p = [' '] ++ v4 ++ (dDep ++ memTail5 v5 v6) := by
    rw [hdrop]; rfl
  have hnext : memStage5 s (p + [' '].length + v4.length + dDep.length) =
      some (v5, v6) := by
    apply memStage5_canonical s _ v5 v6 h5 h6
    have h0 := drop_of_drop_append s p ([' '] ++ v4 ++ dDep) (memTail5 v5 v6)
      (by rw [hdrop2]; simp [List.append_assoc])
    have hlen2 : p + ([' '] ++ v4 ++ dDep).length =
        p + [' '].length + v4.length + dDep.length := by
      simp [List.length_append]; omega
    rwa [hlen2] at h0
  exact capDelim_first s p dDep [' '] v4 (memTail5 v5 v6) (memStage5 s)
    (v5, v6) (by decide) (cleanVal_ne_nil _ h4) (cleanVal_head _ h4)
    (cleanVal_no_newline _ h4) rfl hdrop2 hnext

theorem memStage3_canonical (s : List Char) (p : Nat)
    (v3 v4 v5 v6 : List Char)
    (h3 : cleanVal v3 = true) (h4 : cleanVal v4 = true)
    (h5 : cleanVal v5 = true) (h6 : cleanVal v6 = true)
    (hdrop : s.drop p = memTail3 v3 v4 v5 v6) :
    memStage3 s p = some (v3, v4, v5, v6) := by
  have hdrop2 : s.drop p = [' '] ++ v3 ++ (dCore ++ memTail4 v4 v5 v6) := by
    rw [hdrop]; rfl
  have hnext : memStage4 s (p + [' '].length + v3.length + dCore.length) =
      some (v4, v5, v6) := by
    apply memStage4_canonical s _ v4 v5 v6 h4 h5 h6
    have h0 := drop_of_drop_append s p ([' '] ++ v3 ++ dCore)
      (memTail4 v4 v5 v6) (by rw [hdrop2]; simp [List.append_assoc])
    have hlen2 : p + ([' '] ++ v3 ++ dCore).length =
        p + [' '].length + v3.length + dCore.length := by
      simp [List.length_append]; omega
    rwa [hlen2] at h0
  exact capDelim_first s p dCore [' '] v3 (memTail4 v4 v5 v6) (memStage4 s)
    (v4, v5, v6) (by decide) (cleanVal_ne_nil _ h3) (cleanVal_head _ h3)
    (cleanVal_no_newline _ h3) rfl hdrop2 hnext

theorem memStage2_canonical (s : List Char) (p : Nat)
    (v2 v3 v4 v5 v6 : List Char)
    (h2 : cleanVal v2 = true) (h3 : cleanVal v3 = true)
    (h4 : cleanVal v4 = true) (h5 : cleanVal v5 = true)
    (h6 : cleanVal v6 = true)
    (hdrop : s.drop p = memTail2 v2 v3 v4 v5 v6) :
    memStage2 s p = some (v2, v3, v4, v5, v6) := by
  have hdrop2 : s.drop p = [' '] ++ v2 ++ (dKey ++ memTail3 v3 v4 v5 v6) := by
    rw [hdrop]; rfl
  have hnext : memStage3 s (p + [' '].length + v2.length + dKey.length) =
      some (v3, v4, v5, v6) := by
    apply memStage3_canonical s _ v3 v4 v5 v6 h3 h4 h5 h6
    have h0 := drop_of_drop_append s p ([' '] ++ v2 ++ dKey)
      (memTail3 v3 v4 v5 v6) (by rw [hdrop2]; simp [List.append_assoc])
    have hlen2 : p + ([' '] ++ v2 ++ dKey).length =
        p + [' '].length + v2.length + dKey.length := by
      simp [List.length_append]; omega
    rwa [hlen2] at h0
  exact capDelim_first s p dKey [' '] v2 (memTail3 v3 v4 v5 v6) (memStage3 s)
    (v3, v4, v5, v6) (by decide) (cleanVal_ne_nil _ h2) (cleanVal_head _ h2)
    (cleanVal_no_newline _ h2) rfl hdrop2 hnext

theorem memStage1_canonical (s : List Char) (p : Nat)
    (v1 v2 v3 v4 v5 v6 : List Char)
    (h1 : cleanVal v1 = true) (h2 : cleanVal v2 = true)
    (h3 : cleanVal v3 = true) (h4 : cleanVal v4 = true)
    (h5 : cleanVal v5 = true) (h6 : cleanVal v6 = true)
    (hdrop : s.drop p = memTail1 v1 v2 v3 v4 v5 v6) :
    memStage1 s p = some (v1, v2, v3, v4, v5, v6) := by
  have hdrop2 : s.drop p = [' '] ++ v1 ++ (dOver ++ memTail2 v2 v3 v4 v5 v6) := by
    rw [hdrop]; rfl
  have hnext : memStage2 s (p + [' '].length + v1.length + dOver.length) =
      some (v2, v3, v4, v5, v6) := by
    apply memStage2_canonical s _ v2 v3 v4 v5 v6 h2 h3 h4 h5 h6
    have h0 := drop_of_drop_append s p ([' '] ++ v1 ++ dOver)
      (memTail2 v2 v3 v4 v5 v6) (by rw [hdrop2]; simp [List.append_assoc])
    have hlen2 : p + ([' '] ++ v1 ++ dOver).length =
        p + [' '].length + v1.length + dOver.length := by
      simp [List.length_append]; omega
    rwa [hlen2] at h0
  exact capDelim_first s p dOver [' '] v1 (memTail2 v2 v3 v4 v5 v6)
    (memStage2 s) (v2, v3, v4, v5, v6) (by decide) (cleanVal_ne_nil _ h1)
    (cleanVal_head _ h1) (cleanVal_no_newline _ h1) rfl hdrop2 hnext

theorem extractMemoryCore_canonical (v1 v2 v3 v4 v5 v6 : List Char)
    (h1 : cleanVal v1 = true) (h2 : cleanVal v2 = true)
    (h3 : cleanVal v3 = true) (h4 : cleanVal v4 = true)
    (h5 : cleanVal v5 = true) (h6 : cleanVal v6 = true) :
    extractMemoryCore (memBlock v1 v2 v3 v4 v5 v6) =
      some (v1, v2, v3, v4, v5, v6) := by
  have hblock : memBlock v1 v2 v3 v4 v5 v6 =
      mMemory ++ ('\n' :: (lFile ++ memTail1 v1 v2 v3 v4 v5 v6)) := by
    simp [memBlock, memTail1, memTail2, memTail3, memTail4, memTail5,
      memTail6, List.append_assoc]
  have htake0 : takeEq mMemory ((memBlock v1 v2 v3 v4 v5 v6).drop 0) = true := by
    rw [List.drop_zero, hblock]
    exact takeEq_append_self _ _
  obtain ⟨rest0, hocc⟩ := occs_cons_of mMemory (memBlock v1 v2 v3 v4 v5 v6) 0
    htake0 (fun x hx => absurd hx (Nat.not_lt_zero x)) (Nat.zero_le _)
  have hd1 : (memBlock v1 v2 v3 v4 v5 v6).drop (0 + mMemory.length) =
      '\n' :: (lFile ++ memTail1 v1 v2 v3 v4 v5 v6) :=
    drop_of_drop_append _ 0 mMemory _ (by rw [List.drop_zero]; exact hblock)
  have hW1 : wsLen ((memBlock v1 v2 v3 v4 v5 v6).drop (0 + mMemory.length)) = 1 := by
    rw [hd1, wsLen_cons]
    rw [show lFile ++ memTail1 v1 v2 v3 v4 v5 v6 =
      'f' :: (cs "ile:" ++ memTail1 v1 v2 v3 v4 v5 v6) from rfl, wsLen_cons]
    rfl
  have hd2 : (memBlock v1 v2 v3 v4 v5 v6).drop (0 + mMemory.length + 1) =
      lFile ++ memTail1 v1 v2 v3 v4 v5 v6 := by
    have h0 := drop_of_drop_append _ (0 + mMemory.length) ['\n']
      (lFile ++ memTail1 v1 v2 v3 v4 v5 v6) (by rw [hd1]; rfl)
    exact h0
  have htakeF : takeEq lFile
      ((memBlock v1 v2 v3 v4 v5 v6).drop (0 + mMemory.length + 1)) = true := by
    rw [hd2]
    exact takeEq_append_self _ _
  have hd3 : (memBlock v1 v2 v3 v4 v5 v6).drop
      (0 + mMemory.length + 1 + lFile.length) = memTail1 v1 v2 v3 v4 v5 v6 :=
    drop_of_drop_append _ (0 + mMemory.length + 1) lFile _ hd2
  have hstage1 := memStage1_canonical (memBlock v1 v2 v3 v4 v5 v6)
    (0 + mMemory.length + 1 + lFile.length) v1 v2 v3 v4 v5 v6
    h1 h2 h3 h4 h5 h6 hd3
  rw [extractMemoryCore, hocc]
  apply firstHit_cons_some
  simp only [memFromStart, hW1, htakeF, if_true]
  exact hstage1

theorem candList_mem_ok (ok : Nat → Bool) (p W n q : Nat)
    (h : q ∈ candList ok p W n) : ok q = true := by
  rw [candList] at h
  rcases List.mem_append.mp h with h1 | h1
  · have h2 := (List.mem_filter.mp h1).2
    simp only [Bool.and_eq_true] at h2
    exact h2.1
  · rw [List.mem_reverse] at h1
    have h2 := (List.mem_filter.mp h1).2
    simp only [Bool.and_eq_true] at h2
    exact h2.1.1

theorem extractMemoryCore_labels (s : List Char)
    (g : List Char × List Char × List Char × List Char × List Char × List Char)
    (h : extractMemoryCore s = some g) :
    containsSub lFile s = true ∧ containsSub dOver s = true ∧
    containsSub dKey s = true ∧ containsSub dCore s = true ∧
    containsSub dDep s = true ∧ containsSub dNeed s = true := by
  rw [extractMemoryCore] at h
  obtain ⟨pM, hpMmem, hfs⟩ := firstHit_some_mem _ _ _ h
  simp only [memFromStart] at hfs
  split at hfs
  case isFalse => exact absurd hfs (by simp)
  case isTrue hcond =>
    have c1 : containsSub lFile s = true :=
      containsSub_of_takeEq _ _ _ (by decide) hcond
    rw [memStage1] at hfs
    obtain ⟨q1, hm1, hs1⟩ := firstHit_some_mem _ _ _ hfs
    have c2 : containsSub dOver s = true :=
      containsSub_of_takeEq _ _ _ (by decide) (candList_mem_ok _ _ _ _ _ hm1)
    obtain ⟨g2, hg2, hmap2⟩ := Option.map_eq_some'.mp hs1
    rw [memStage2] at hg2
    obtain ⟨q2, hm2, hs2⟩ := firstHit_some_mem _ _ _ hg2
    have c3 : containsSub dKey s = true :=
      containsSub_of_takeEq _ _ _ (by decide) (candList_mem_ok _ _ _ _ _ hm2)
    obtain ⟨g3, hg3, hmap3⟩ := Option.map_eq_some'.mp hs2
    rw [memStage3] at hg3
    obtain ⟨q3, hm3, hs3⟩ := firstHit_some_mem _ _ _ hg3
    have c4 : containsSub dCore s = true :=
      containsSub_of_takeEq _ _ _ (by decide) (candList_mem_ok _ _ _ _ _ hm3)
    obtain ⟨g4, hg4, hmap4⟩ := Option.map_eq_some'.mp hs3
    rw [memStage4] at hg4
    obtain ⟨q4, hm4, hs4⟩ := firstHit_some_mem _ _ _ hg4
    have c5 : containsSub dDep s = true :=
      containsSub_of_takeEq _ _ _ (by decide) (candList_mem_ok _ _ _ _ _ hm4)
    obtain ⟨g5, hg5, hmap5⟩ := Option.map_eq_some'.mp hs4
    rw [memStage5] at hg5
    obtain ⟨q5, hm5, hs5⟩ := firstHit_some_mem _ _ _ hg5
    have c6 : containsSub dNeed s = true :=
      containsSub_of_takeEq _ _ _ (by decide) (candList_mem_ok _ _ _ _ _ hm5)
    exact ⟨c1, c2, c3, c4, c5, c6⟩

/--
C3 counterexample.  The claim states a `Memory:` block yields a record if
and only if all six labeled lines are present.  On the concrete response
below all six labeled lines are present (with `overview:` and `file:`
swapped), yet the parse yields no memory: presence of the labels is not
sufficient, the lines must appear in the prescribed order.
-/
theorem memory_labels_not_sufficient_counterexample :
    (extract_final_answer
      "Memory:\noverview: b\nfile: a\nkey_definitions: c\ncore_logic: d\ndependencies: e\nneeded_info: f").2 =
      none ∧
    containsSub lFile
      (cs "Memory:\noverview: b\nfile: a\nkey_definitions: c\ncore_logic: d\ndependencies: e\nneeded_info: f") =
      true ∧
    containsSub dOver
      (cs "Memory:\noverview: b\nfile: a\nkey_definitions: c\ncore_logic: d\ndependencies: e\nneeded_info: f") =
      true ∧
    containsSub dKey
      (cs "Memory:\noverview: b\nfile: a\nkey_definitions: c\ncore_logic: d\ndependencies: e\nneeded_info: f") =
      true ∧
    containsSub dCore
      (cs "Memory:\noverview: b\nfile: a\nkey_definitions: c\ncore_logic: d\ndependencies: e\nneeded_info: f") =
      true ∧
    containsSub dDep
      (cs "Memory:\noverview: b\nfile: a\nkey_definitions: c\ncore_logic: d\ndependencies: e\nneeded_info: f") =
      true ∧
    containsSub dNeed
      (cs "Memory:\noverview: b\nfile: a\nkey_definitions: c\ncore_logic: d\ndependencies: e\nneeded_info: f") =
      true := by
  refine ⟨by decide, by decide, by decide, by decide, by decide, by decide,
    by decide⟩

/--
C3 (amended).  All-or-nothing memory parsing: a parse yields a record only
if every one of the six labeled lines occurs in the response (so a block
missing any required line yields no memory at all), and a block whose six
labeled lines appear in the prescribed order with clean single-line values
parses into the record whose `key_definitions` and `dependencies` are
comma-split with each element stripped and empty elements dropped.  Mere
presence of the six labels does not suffice (see the counterexample).
-/
theorem memory_parse_all_or_nothing :
    (∀ (s : List Char)
        (g : List Char × List Char × List Char × List Char × List Char × List Char),
      extractMemoryCore s = some g →
      containsSub lFile s = true ∧ containsSub dOver s = true ∧
      containsSub dKey s = true ∧ containsSub dCore s = true ∧
      containsSub dDep s = true ∧ containsSub dNeed s = true) ∧
    (∀ v1 v2 v3 v4 v5 v6 : List Char,
      cleanVal v1 = true → cleanVal v2 = true → cleanVal v3 = true →
      cleanVal v4 = true → cleanVal v5 = true → cleanVal v6 = true →
      (extract_final_answer (String.mk (memBlock v1 v2 v3 v4 v5 v6))).2 =
        some
          { file := String.mk v1
            overview := String.mk v2
            key_definitions := (cleanList v3).map String.mk
            core_logic := String.mk v4
            dependencies := (cleanList v5).map String.mk
            needed_info := String.mk v6 }) := by
  refine ⟨extractMemoryCore_labels, ?_⟩
  intro v1 v2 v3 v4 v5 v6 h1 h2 h3 h4 h5 h6
  have hcore : extractMemoryCore (cs (String.mk (memBlock v1 v2 v3 v4 v5 v6))) =
      some (v1, v2, v3, v4, v5, v6) :=
    extractMemoryCore_canonical v1 v2 v3 v4 v5 v6 h1 h2 h3 h4 h5 h6
  simp only [extract_final_answer, hcore]
  rw [stripChars_eq_self v1 (cleanVal_head _ h1) (cleanVal_last _ h1),
    stripChars_eq_self v2 (cleanVal_head _ h2) (cleanVal_last _ h2),
    stripChars_eq_self v4 (cleanVal_head _ h4) (cleanVal_last _ h4),
    stripChars_eq_self v6 (cleanVal_head _ h6) (cleanVal_last _ h6)]

/-- Witness for C3: the canonical block with concrete values. -/
theorem memory_parse_all_or_nothing_witness :
    (containsSub lFile (memBlock (cs "a") (cs "o") (cs "k, l") (cs "c")
        (cs "d") (cs "n")) = true ∧
      containsSub dOver (memBlock (cs "a") (cs "o") (cs "k, l") (cs "c")
        (cs "d") (cs "n")) = true ∧
      containsSub dKey (memBlock (cs "a") (cs "o") (cs "k, l") (cs "c")
        (cs "d") (cs "n")) = true ∧
      containsSub dCore (memBlock (cs "a") (cs "o") (cs "k, l") (cs "c")
        (cs "d") (cs "n")) = true ∧
      containsSub dDep (memBlock (cs "a") (cs "o") (cs "k, l") (cs "c")
        (cs "d") (cs "n")) = true ∧
      containsSub dNeed (memBlock (cs "a") (cs "o") (cs "k, l") (cs "c")
        (cs "d") (cs "n")) = true) ∧
    (extract_final_answer (String.mk (memBlock (cs "a") (cs "o") (cs "k, l")
        (cs "c") (cs "d") (cs "n")))).2 =
      some
        { file := String.mk (cs "a")
          overview := String.mk (cs "o")
          key_definitions := (cleanList (cs "k, l")).map String.mk
          core_logic := String.mk (cs "c")
          dependencies := (cleanList (cs "d")).map String.mk
          needed_info := String.mk (cs "n") } :=
  ⟨memory_parse_all_or_nothing.1 (memBlock (cs "a") (cs "o") (cs "k, l")
      (cs "c") (cs "d") (cs "n")) (cs "a", cs "o", cs "k, l", cs "c", cs "d",
      cs "n") (by rfl),
   memory_parse_all_or_nothing.2 (cs "a") (cs "o") (cs "k, l") (cs "c")
     (cs "d") (cs "n") (by decide) (by decide) (by decide) (by decide)
     (by decide) (by decide)⟩

end Agent
